import Mathlib

/-!
Verification development for the loan amortization schedule engine
(`LoanSchedule` in `app.py`).

The Python engine is shallowly embedded here:
* calendar dates become a `Date` structure with the proleptic Gregorian
  ordinal (`toOrdinal`, matching `date.toordinal()`), and the chronological
  comparison of `datetime.date` becomes the lexicographic `dateLt`/`dateLe`;
* Python float arithmetic on money is modelled exactly over `ℚ`;
* the mutable loop of `calculate_schedule` becomes explicit state passing:
  `walkStep` is one iteration of the inner sub-period loop (lines 85-121),
  `processMonth` one iteration of the outer monthly loop (lines 48-151),
  and `runFrom` the outer loop with its early `break`;
* `__init__` (which can raise `ValueError`) becomes `initLoanSchedule`
  returning `Except`.

The `ok` fields of `WalkState`/`CalcState` are pure instrumentation used to
state side conditions (each applied part payment is covered by the balance,
each accrued period interest is at most the level payment); they do not
feed back into any computed value of the schedule.
-/

/-- A calendar date, as `datetime.date`: year, month (1-12), day (1-31). -/
structure Date where
  year : ℕ
  month : ℕ
  day : ℕ
deriving DecidableEq

/-- Embeds `_is_leap_year` (line 155-157):
`year % 4 == 0 and (year % 100 != 0 or year % 400 == 0)`. -/
def isLeapYear (y : ℕ) : Bool :=
  y % 4 == 0 && (y % 100 != 0 || y % 400 == 0)

/-- Number of days of a month in the Gregorian calendar (the month length
used by `datetime.date` and `relativedelta`). -/
def daysInMonth (y m : ℕ) : ℕ :=
  if m = 2 then (if isLeapYear y then 29 else 28)
  else if m = 4 ∨ m = 6 ∨ m = 9 ∨ m = 11 then 30
  else 31

/-- A structurally valid `datetime.date`. -/
def validDate (d : Date) : Prop :=
  1 ≤ d.month ∧ d.month ≤ 12 ∧ 1 ≤ d.day ∧ d.day ≤ daysInMonth d.year d.month

instance (d : Date) : Decidable (validDate d) := by
  unfold validDate
  infer_instance

/-- Chronological strict comparison of dates (`datetime.date.__lt__`):
lexicographic on (year, month, day). -/
def dateLt (a b : Date) : Bool :=
  decide (a.year < b.year) ||
    (decide (a.year = b.year) &&
      (decide (a.month < b.month) ||
        (decide (a.month = b.month) && decide (a.day < b.day))))

/-- Chronological comparison of dates (`datetime.date.__le__`). -/
def dateLe (a b : Date) : Bool :=
  dateLt a b || decide (a = b)

/-- Days before month `m` within year `y`. -/
def daysBeforeMonth (y : ℕ) : ℕ → ℕ
  | 0 => 0
  | 1 => 0
  | Nat.succ m => daysBeforeMonth y m + daysInMonth y m

/-- `datetime.date.toordinal()`: day number in the proleptic Gregorian
calendar, with 0001-01-01 being day 1.  Used to embed `timedelta.days` of a
date difference as `toOrdinal e - toOrdinal s`. -/
def toOrdinal (d : Date) : ℕ :=
  365 * (d.year - 1) + (d.year - 1) / 4 - (d.year - 1) / 100 + (d.year - 1) / 400
    + daysBeforeMonth d.year d.month + d.day

/-- Embeds `current_date + relativedelta(months=1)` (line 50): add one
calendar month, clamping the day to the length of the target month. -/
def addOneMonth (d : Date) : Date :=
  let y := if d.month = 12 then d.year + 1 else d.year
  let m := if d.month = 12 then 1 else d.month + 1
  ⟨y, m, min d.day (daysInMonth y m)⟩

/-- Embeds lines 50-55 of `calculate_schedule`: `next_month` via
`relativedelta(months=1)`, then the last day of that month (line 52
computes it with the `replace(day=28) + 4 days` idiom, whose value is
exactly `daysInMonth`), then `replace` with
`min(current_date.day, last_day_of_next_month.day)`. -/
def nextPaymentDate (d : Date) : Date :=
  let nm := addOneMonth d
  let lastDay := daysInMonth nm.year nm.month
  ⟨nm.year, nm.month, min d.day lastDay⟩

/-- Convention tag recognised for actual/365-or-366 interest. -/
def actual365Tag : String := "actual_365"

/-- Convention tag recognised for 30/360 interest. -/
def thirty360Tag : String := "30_360"

/-- The message of the `ValueError` raised by `__init__` on an unknown
day-count convention. -/
def convErrMsg : String :=
  "day_count_convention must be either actual_365 or 30_360"

/-- One part payment of the input list: a date and an amount. -/
structure PartPayment where
  date : Date
  amount : ℚ
deriving DecidableEq

/-- The object built by `LoanSchedule.__init__`: note that
`annualInterestRate` stores the input percentage already divided by 100
(line 22) and `dayCountConvention` stores the lowercased tag (line 26). -/
structure LoanSchedule where
  principal : ℚ
  annualInterestRate : ℚ
  loanTermYears : ℕ
  startDate : Date
  partPayments : List PartPayment
  dayCountConvention : String
deriving DecidableEq

/-- Embeds `LoanSchedule.__init__` (lines 9-30).  The only validation the
constructor performs is the membership test on the lowercased convention
tag (lines 29-30); principal, rate and term are stored unchecked. -/
def initLoanSchedule (principal rate : ℚ) (years : ℕ) (start : Date)
    (pps : List PartPayment) (conv : String) : Except String LoanSchedule :=
  let c := conv.toLower
  if c == actual365Tag || c == thirty360Tag then
    Except.ok
      { principal := principal
        annualInterestRate := rate / 100
        loanTermYears := years
        startDate := start
        partPayments := pps
        dayCountConvention := c }
  else
    Except.error convErrMsg

/-- Interest of one sub-period (lines 92-101): actual/365-or-366 on the
`actual_365` branch, 30/360 otherwise. -/
def subPeriodInterest (conv : String) (bal rate : ℚ) (s e : Date) : ℚ :=
  if conv == actual365Tag then
    let daysInYear : ℚ := if isLeapYear s.year then 366 else 365
    let days : ℤ := (toOrdinal e : ℤ) - (toOrdinal s : ℤ)
    bal * rate * (days : ℚ) / daysInYear
  else
    let d1 : ℕ := min s.day 30
    let d2 : ℕ := min e.day 30
    let days : ℤ :=
      max 0 (360 * ((e.year : ℤ) - (s.year : ℤ))
        + 30 * ((e.month : ℤ) - (s.month : ℤ)) + ((d2 : ℤ) - (d1 : ℤ)))
    bal * rate * (days : ℚ) / 360

/-- An element of `period_part_payments` (lines 71-76 and the line 82
marker): parsed date, amount, and the computed `original_index`. -/
structure PeriodPP where
  date : Date
  amount : ℚ
  originalIndex : ℕ
deriving DecidableEq

/-- Embeds the `original_index` computation of lines 74-75:
`len([p for p in part_payments if p.date == pp.date and p.date < pp_date]) + 1`
(the comparison is between the same parsed date on both conjuncts). -/
def originalIndex (allPPs : List PartPayment) (ppDate : Date) : ℕ :=
  (allPPs.filter (fun p => decide (p.date = ppDate) && dateLt p.date ppDate)).length + 1

/-- Embeds lines 66-76: collect the part payments of the closed period
`[cur, next]`, in input order, tagging each with its `original_index`. -/
def collectPeriodPPs (allPPs : List PartPayment) (cur next : Date) : List PeriodPP :=
  (allPPs.filter (fun pp => dateLe cur pp.date && dateLe pp.date next)).map
    (fun pp => ⟨pp.date, pp.amount, originalIndex allPPs pp.date⟩)

/-- Strict comparison on the sort key `(date, original_index)` of line 79. -/
def ppKeyLt (a b : PeriodPP) : Bool :=
  dateLt a.date b.date ||
    (decide (a.date = b.date) && decide (a.originalIndex < b.originalIndex))

/-- Stable insertion used by `sortPPs`: an element is placed before the
first element that is not strictly smaller, so ties keep input order, as
Python `list.sort` does. -/
def insertPP (x : PeriodPP) : List PeriodPP → List PeriodPP
  | [] => [x]
  | y :: ys => if ppKeyLt y x then y :: insertPP x ys else x :: y :: ys

/-- Embeds the stable sort of line 79. -/
def sortPPs : List PeriodPP → List PeriodPP
  | [] => []
  | x :: xs => insertPP x (sortPPs xs)

/-- One row of the returned schedule (the dicts of lines 109-117 and
136-144).  For part-payment rows `paymentNumber` is the N of the label
`Part Payment N`. -/
structure Entry where
  isPartPayment : Bool
  paymentNumber : ℕ
  date : Date
  payment : ℚ
  principal : ℚ
  interest : ℚ
  remainingBalance : ℚ
deriving DecidableEq

/-- State of the inner sub-period loop of lines 85-121. -/
structure WalkState where
  periodInterest : ℚ
  curStart : Date
  tempBalance : ℚ
  out : List Entry
  ok : Bool

/-- One iteration of the sub-period loop (lines 85-121): skip entries not
past `current_period_start` (line 89), accrue the sub-period interest,
emit a part-payment row and floor the running balance when the amount is
positive, and advance `current_period_start`.  The `ok` conjunct records
whether the applied amount was covered by the running balance. -/
def walkStep (conv : String) (rate : ℚ) (st : WalkState) (pp : PeriodPP) : WalkState :=
  if dateLe pp.date st.curStart then st
  else
    let i := subPeriodInterest conv st.tempBalance rate st.curStart pp.date
    if 0 < pp.amount then
      { periodInterest := st.periodInterest + i
        curStart := pp.date
        tempBalance := max (st.tempBalance - pp.amount) 0
        out := st.out ++
          [{ isPartPayment := true
             paymentNumber := pp.originalIndex
             date := pp.date
             payment := pp.amount
             principal := pp.amount
             interest := 0
             remainingBalance := st.tempBalance - pp.amount }]
        ok := st.ok && decide (pp.amount ≤ st.tempBalance) }
    else
      { st with periodInterest := st.periodInterest + i, curStart := pp.date }

/-- State of the outer monthly loop of lines 48-151. -/
structure CalcState where
  currentDate : Date
  remainingBalance : ℚ
  schedule : List Entry
  ok : Bool

/-- The list walked by the sub-period loop: the sorted period part
payments (line 79) followed by the zero-amount end-of-period marker of
line 82 (the marker carries no `original_index` in the source; its index
value is never read because its amount is not positive). -/
def periodList (allPPs : List PartPayment) (cur next : Date) : List PeriodPP :=
  sortPPs (collectPeriodPPs allPPs cur next) ++
    [{ date := next, amount := 0, originalIndex := 1 }]

/-- The whole sub-period loop of lines 85-121, starting from the period
start and the current balance (lines 62-64). -/
def runWalk (conv : String) (rate : ℚ) (l : List PeriodPP) (cur : Date)
    (bal : ℚ) : WalkState :=
  l.foldl (walkStep conv rate)
    { periodInterest := 0
      curStart := cur
      tempBalance := bal
      out := []
      ok := true }

/-- One iteration of the monthly loop (lines 48-147): next payment date,
collected and stably sorted period part payments plus the zero-amount
marker of line 82, the sub-period walk, then the installment row with
`principal = min(payment - interest, balance)` and the floored balance
update.  The `ok` conjunct additionally records whether the accrued
period interest stayed at most the level payment. -/
def processMonth (conv : String) (rate mp : ℚ) (allPPs : List PartPayment)
    (num : ℕ) (st : CalcState) : CalcState :=
  let nextDate := nextPaymentDate st.currentDate
  let w := runWalk conv rate (periodList allPPs st.currentDate nextDate)
    st.currentDate st.remainingBalance
  let remaining := w.tempBalance
  let interest := w.periodInterest
  let principalPayment := min (mp - interest) remaining
  let remaining2 := max (remaining - principalPayment) 0
  { currentDate := nextDate
    remainingBalance := remaining2
    schedule := st.schedule ++ w.out ++
      [{ isPartPayment := false
         paymentNumber := num
         date := nextDate
         payment := principalPayment + interest
         principal := principalPayment
         interest := interest
         remainingBalance := max remaining2 0 }]
    ok := st.ok && (w.ok && decide (interest ≤ mp)) }

/-- The outer loop `for payment_num in range(1, total_payments + 1)` with
its early `break` on `remaining_balance <= 0` (lines 149-151): `k` months
remain, `num` is the next installment number. -/
def runFrom (conv : String) (rate mp : ℚ) (allPPs : List PartPayment) :
    ℕ → ℕ → CalcState → CalcState
  | 0, _, st => st
  | Nat.succ k, num, st =>
    let st2 := processMonth conv rate mp allPPs num st
    if st2.remainingBalance ≤ 0 then st2
    else runFrom conv rate mp allPPs k (num + 1) st2

/-- The level monthly payment of lines 33-43: `monthly_rate` is the annual
rate over 12, and the standard annuity formula is used unless the monthly
rate is zero, in which case the principal is split evenly. -/
def loanMonthlyPayment (L : LoanSchedule) : ℚ :=
  let monthlyRate := L.annualInterestRate / 12
  let totalPayments := L.loanTermYears * 12
  if monthlyRate = 0 then L.principal / (totalPayments : ℚ)
  else L.principal * monthlyRate * (1 + monthlyRate) ^ totalPayments /
    ((1 + monthlyRate) ^ totalPayments - 1)

/-- `calculate_schedule` (lines 32-153) as a state computation: the level
monthly payment of lines 38-43 followed by the monthly loop. -/
def runLoan (L : LoanSchedule) : CalcState :=
  runFrom L.dayCountConvention L.annualInterestRate (loanMonthlyPayment L)
    L.partPayments (L.loanTermYears * 12) 1
    { currentDate := L.startDate
      remainingBalance := L.principal
      schedule := []
      ok := true }

/-- The list returned by `calculate_schedule`. -/
def calculateSchedule (L : LoanSchedule) : List Entry :=
  (runLoan L).schedule

/-- The instrumentation flag of the run: `true` exactly when every applied
part payment was at most the balance it was applied against and every
period interest was at most the level monthly payment. -/
def calcOk (L : LoanSchedule) : Bool :=
  (runLoan L).ok

/-- Count of installment rows of a schedule (rows with
`is_part_payment = False`). -/
def countInstallments (l : List Entry) : ℕ :=
  (l.filter (fun e => !e.isPartPayment)).length

/-- Boolean chain check: every element of the list is at most the bound,
each bounding the next. -/
def niFrom (b : ℚ) : List ℚ → Bool
  | [] => true
  | x :: xs => decide (x ≤ b) && niFrom x xs

/-- Boolean check that a list of rationals is non-increasing. -/
def nonIncreasingQ : List ℚ → Bool
  | [] => true
  | x :: xs => niFrom x xs

/-- The walk state produced inside one `processMonth` call (projection of
the `w` of `processMonth`, named so that lemmas can speak about it). -/
def monthWalk (conv : String) (rate : ℚ) (pps : List PartPayment)
    (st : CalcState) : WalkState :=
  runWalk conv rate (periodList pps st.currentDate (nextPaymentDate st.currentDate))
    st.currentDate st.remainingBalance

/-- The `principal_payment` of one `processMonth` call (line 129). -/
def monthPrincipal (conv : String) (rate mp : ℚ) (pps : List PartPayment)
    (st : CalcState) : ℚ :=
  min (mp - (monthWalk conv rate pps st).periodInterest)
    (monthWalk conv rate pps st).tempBalance

/-- The end-of-month `remaining_balance` of one `processMonth` call (line 132). -/
def monthRem (conv : String) (rate mp : ℚ) (pps : List PartPayment)
    (st : CalcState) : ℚ :=
  max ((monthWalk conv rate pps st).tempBalance - monthPrincipal conv rate mp pps st) 0

/-- The installment row of one `processMonth` call (lines 136-144). -/
def monthInstEntry (conv : String) (rate mp : ℚ) (pps : List PartPayment)
    (num : ℕ) (st : CalcState) : Entry :=
  { isPartPayment := false
    paymentNumber := num
    date := nextPaymentDate st.currentDate
    payment := monthPrincipal conv rate mp pps st + (monthWalk conv rate pps st).periodInterest
    principal := monthPrincipal conv rate mp pps st
    interest := (monthWalk conv rate pps st).periodInterest
    remainingBalance := max (monthRem conv rate mp pps st) 0 }

/-- Second definition for the refinement claim C7, following the words of
spec section 4.2: interest equals balance times annualRate times
actualDaysBetween(start, end) divided by daysInYearOf(start.year), where
the year length is 366 for a leap year (year divisible by 4 and either not
divisible by 100 or divisible by 400), else 365. -/
def specActual365Interest (bal rate : ℚ) (s e : Date) : ℚ :=
  let daysInYearOf : ℚ :=
    if s.year % 4 = 0 ∧ (s.year % 100 ≠ 0 ∨ s.year % 400 = 0) then 366 else 365
  let actualDaysBetween : ℤ := (toOrdinal e : ℤ) - (toOrdinal s : ℤ)
  bal * rate * (actualDaysBetween : ℚ) / daysInYearOf

/-- Second definition for the refinement claim C8, following the words of
spec section 4.1: add one calendar month, then clamp the day-of-month to
the last valid day of the resulting month if the original day does not
exist there. -/
def specNextMonthlyDate (d : Date) : Date :=
  let y := if d.month = 12 then d.year + 1 else d.year
  let m := if d.month = 12 then 1 else d.month + 1
  ⟨y, m, if d.day ≤ daysInMonth y m then d.day else daysInMonth y m⟩

/-- Concrete run for C1: a zero-rate one-year loan with two part payments
on the same date (100 then 50 on 2023-01-10). -/
def c1Loan : LoanSchedule :=
  { principal := 1200, annualInterestRate := 0, loanTermYears := 1,
    startDate := ⟨2023, 1, 1⟩,
    partPayments := [⟨⟨2023, 1, 10⟩, 100⟩, ⟨⟨2023, 1, 10⟩, 50⟩],
    dayCountConvention := actual365Tag }

/-- Concrete run for C3: a part payment dated exactly on the loan start
date. -/
def c3Loan : LoanSchedule :=
  { principal := 1200, annualInterestRate := 0, loanTermYears := 1,
    startDate := ⟨2023, 1, 1⟩,
    partPayments := [⟨⟨2023, 1, 1⟩, 500⟩],
    dayCountConvention := actual365Tag }

/-- Concrete run for C4: a part payment of 2000 against an outstanding
balance of 1000. -/
def c4Loan : LoanSchedule :=
  { principal := 1000, annualInterestRate := 0, loanTermYears := 1,
    startDate := ⟨2023, 5, 1⟩,
    partPayments := [⟨⟨2023, 5, 10⟩, 2000⟩],
    dayCountConvention := actual365Tag }

/-- Concrete run for the C5 counterexample: a part payment of 2000 against
an outstanding balance of 800. -/
def c5Loan : LoanSchedule :=
  { principal := 800, annualInterestRate := 0, loanTermYears := 1,
    startDate := ⟨2024, 1, 1⟩,
    partPayments := [⟨⟨2024, 1, 10⟩, 2000⟩],
    dayCountConvention := actual365Tag }

/-- Concrete run for the C5 witness: a covered part payment on a zero-rate
loan. -/
def c5WitLoan : LoanSchedule :=
  { principal := 1200, annualInterestRate := 0, loanTermYears := 1,
    startDate := ⟨2023, 1, 1⟩,
    partPayments := [⟨⟨2023, 1, 10⟩, 100⟩],
    dayCountConvention := actual365Tag }

/-- Concrete run for the C6 counterexample: a 100 percent rate loan whose
balance is fully consumed by a part payment inside month 1, after which
the accrued interest exceeds the level payment and the balance comes back
above zero, so the loop continues into month 2. -/
def c6Loan : LoanSchedule :=
  { principal := 100000, annualInterestRate := 1, loanTermYears := 5,
    startDate := ⟨2023, 1, 1⟩,
    partPayments := [⟨⟨2023, 2, 1⟩, 100000⟩],
    dayCountConvention := actual365Tag }

/-- Concrete run for the C6 witness: a part payment retiring the loan in
month 1 of a twelve-month term. -/
def c6WitLoan : LoanSchedule :=
  { principal := 1200, annualInterestRate := 0, loanTermYears := 1,
    startDate := ⟨2023, 1, 1⟩,
    partPayments := [⟨⟨2023, 1, 10⟩, 1200⟩],
    dayCountConvention := actual365Tag }

/-- Concrete run for the C9 witness: a single part payment dated exactly
on the first installment due date. -/
def c9Loan : LoanSchedule :=
  { principal := 1200, annualInterestRate := 0, loanTermYears := 1,
    startDate := ⟨2023, 1, 15⟩,
    partPayments := [⟨⟨2023, 2, 15⟩, 100⟩],
    dayCountConvention := actual365Tag }

/-- Concrete run for the C10 witness: a loan with no part payments, to
which one dated before the start date is added. -/
def c10Loan : LoanSchedule :=
  { principal := 1200, annualInterestRate := 0, loanTermYears := 1,
    startDate := ⟨2023, 1, 1⟩,
    partPayments := [],
    dayCountConvention := actual365Tag }

/-! ## Order lemmas for dates -/

theorem dateLt_iff (a b : Date) : dateLt a b = true ↔
    a.year < b.year ∨ (a.year = b.year ∧
      (a.month < b.month ∨ (a.month = b.month ∧ a.day < b.day))) := by
  simp [dateLt]

theorem date_ext_iff (a b : Date) :
    a = b ↔ a.year = b.year ∧ a.month = b.month ∧ a.day = b.day := by
  cases a; cases b; simp

theorem dateLe_iff (a b : Date) : dateLe a b = true ↔
    dateLt a b = true ∨ a = b := by
  simp [dateLe]

theorem dateLt_irrefl (a : Date) : dateLt a a = false := by
  simp [dateLt]

theorem dateLe_refl (a : Date) : dateLe a a = true := by
  simp [dateLe]

theorem dateLt_trans {a b c : Date} (h1 : dateLt a b = true)
    (h2 : dateLt b c = true) : dateLt a c = true := by
  rw [dateLt_iff] at h1 h2 ⊢
  omega

theorem dateLt_ne {a b : Date} (h : dateLt a b = true) : ¬a = b := by
  rw [dateLt_iff] at h
  rw [date_ext_iff]
  omega

theorem dateLe_of_lt {a b : Date} (h : dateLt a b = true) : dateLe a b = true := by
  rw [dateLe_iff]; exact Or.inl h

theorem dateLe_lt_trans {a b c : Date} (h1 : dateLe a b = true)
    (h2 : dateLt b c = true) : dateLt a c = true := by
  rcases (dateLe_iff a b).mp h1 with h | h
  · exact dateLt_trans h h2
  · exact h ▸ h2

theorem dateLt_le_trans {a b c : Date} (h1 : dateLt a b = true)
    (h2 : dateLe b c = true) : dateLt a c = true := by
  rcases (dateLe_iff b c).mp h2 with h | h
  · exact dateLt_trans h1 h
  · exact h ▸ h1

theorem dateLe_trans {a b c : Date} (h1 : dateLe a b = true)
    (h2 : dateLe b c = true) : dateLe a c = true := by
  rcases (dateLe_iff a b).mp h1 with h | h
  · exact dateLe_of_lt (dateLt_le_trans h h2)
  · exact h ▸ h2

theorem dateLe_false_lt {a b : Date} (h : dateLe a b = false) :
    dateLt b a = true := by
  have h1 : ¬(dateLt a b = true) := by
    intro hx; simp [dateLe, hx] at h
  have h2 : ¬(a = b) := by
    intro hx; simp [dateLe, hx] at h
  rw [dateLt_iff] at h1 ⊢
  rw [date_ext_iff] at h2
  omega

theorem dateLt_asymm {a b : Date} (h : dateLt a b = true) :
    dateLt b a = false := by
  rw [dateLt_iff] at h
  cases hx : dateLt b a
  · rfl
  · rw [dateLt_iff] at hx; omega

theorem dateLt_next (d : Date) : dateLt d (nextPaymentDate d) = true := by
  rw [dateLt_iff]
  unfold nextPaymentDate addOneMonth
  by_cases h : d.month = 12
  · simp [h]
  · simp [h]

/-! ## List helpers -/

theorem niFrom_append (b : ℚ) (l1 l2 : List ℚ) :
    niFrom b (l1 ++ l2) = (niFrom b l1 && niFrom (l1.getLastD b) l2) := by
  induction l1 generalizing b with
  | nil => simp [niFrom]
  | cons x xs ih =>
    simp only [List.cons_append, niFrom, List.getLastD_cons, List.append_eq]
    rw [ih x, Bool.and_assoc]

theorem getLastD_append (b : ℚ) (l1 l2 : List ℚ) :
    (l1 ++ l2).getLastD b = l2.getLastD (l1.getLastD b) := by
  induction l1 generalizing b with
  | nil => simp
  | cons x xs ih =>
    rw [List.cons_append, List.getLastD_cons, List.getLastD_cons, ih]

theorem nonIncreasingQ_of_niFrom {b : ℚ} {l : List ℚ} (h : niFrom b l = true) :
    nonIncreasingQ l = true := by
  cases l with
  | nil => rfl
  | cons x xs =>
    simp only [niFrom, Bool.and_eq_true] at h
    exact h.2

/-! ## The original_index computation is constantly 1 -/

theorem originalIndex_eq_one (allPPs : List PartPayment) (d : Date) :
    originalIndex allPPs d = 1 := by
  unfold originalIndex
  have h : allPPs.filter (fun p => decide (p.date = d) && dateLt p.date d) = [] := by
    apply List.filter_eq_nil_iff.mpr
    intro p _
    by_cases hp : p.date = d
    · simp [hp, dateLt_irrefl]
    · simp [hp]
  rw [h]
  rfl

theorem collect_eq (allPPs : List PartPayment) (cur next : Date) :
    collectPeriodPPs allPPs cur next =
      (allPPs.filter (fun pp => dateLe cur pp.date && dateLe pp.date next)).map
        (fun pp => ⟨pp.date, pp.amount, 1⟩) := by
  unfold collectPeriodPPs
  apply List.map_congr_left
  intro p _
  rw [originalIndex_eq_one]

/-! ## The stable sort is a permutation -/

theorem insertPP_perm (x : PeriodPP) (l : List PeriodPP) :
    List.Perm (insertPP x l) (x :: l) := by
  induction l with
  | nil => exact List.Perm.refl _
  | cons y ys ih =>
    unfold insertPP
    split
    · exact List.Perm.trans (List.Perm.cons y ih) (List.Perm.swap x y ys)
    · exact List.Perm.refl _

theorem sortPPs_perm (l : List PeriodPP) : List.Perm (sortPPs l) l := by
  induction l with
  | nil => exact List.Perm.refl _
  | cons x xs ih =>
    unfold sortPPs
    exact List.Perm.trans (insertPP_perm x (sortPPs xs)) (List.Perm.cons x ih)

/-! ## Sub-period walk lemmas -/

theorem walkStep_ok_mono (conv : String) (rate : ℚ) (st : WalkState) (x : PeriodPP)
    (h : (walkStep conv rate st x).ok = true) : st.ok = true := by
  unfold walkStep at h
  split at h
  · exact h
  · split at h
    · simp only [Bool.and_eq_true] at h
      exact h.1
    · exact h

theorem walk_ok_mono (conv : String) (rate : ℚ) (l : List PeriodPP) :
    ∀ st : WalkState, (l.foldl (walkStep conv rate) st).ok = true → st.ok = true := by
  induction l with
  | nil => intro st h; exact h
  | cons x xs ih =>
    intro st h
    exact walkStep_ok_mono conv rate st x (ih _ h)

theorem walkStep_curStart_mono (conv : String) (rate : ℚ) (st : WalkState)
    (x : PeriodPP) : dateLe st.curStart (walkStep conv rate st x).curStart = true := by
  unfold walkStep
  split
  · exact dateLe_refl _
  · rename_i hskip
    have hlt : dateLt st.curStart x.date = true := by
      apply dateLe_false_lt
      simpa using hskip
    split
    · exact dateLe_of_lt hlt
    · exact dateLe_of_lt hlt

theorem walk_curStart_mono (conv : String) (rate : ℚ) (l : List PeriodPP) :
    ∀ st : WalkState, dateLe st.curStart (l.foldl (walkStep conv rate) st).curStart = true := by
  induction l with
  | nil => intro st; exact dateLe_refl _
  | cons x xs ih =>
    intro st
    exact dateLe_trans (walkStep_curStart_mono conv rate st x) (ih _)

theorem walk_out_spec (conv : String) (rate : ℚ) (ub : Date) (l : List PeriodPP) :
    ∀ st : WalkState, (∀ x ∈ l, dateLe x.date ub = true) →
      ∀ e ∈ (l.foldl (walkStep conv rate) st).out,
        e ∈ st.out ∨ (e.isPartPayment = true ∧ dateLt st.curStart e.date = true ∧
          dateLe e.date ub = true) := by
  induction l with
  | nil => intro st _ e he; exact Or.inl he
  | cons x xs ih =>
    intro st hl e he
    have hx : dateLe x.date ub = true := hl x (by simp)
    have hxs : ∀ y ∈ xs, dateLe y.date ub = true := fun y hy => hl y (by simp [hy])
    rcases ih (walkStep conv rate st x) hxs e he with h | h
    · -- e was already present after the single step
      revert h
      unfold walkStep
      split
      · exact fun h => Or.inl h
      · rename_i hskip
        have hlt : dateLt st.curStart x.date = true := by
          apply dateLe_false_lt
          simpa using hskip
        split
        · intro h
          simp only [List.mem_append, List.mem_singleton] at h
          rcases h with h | h
          · exact Or.inl h
          · subst h
            exact Or.inr ⟨rfl, hlt, hx⟩
        · exact fun h => Or.inl h
    · refine Or.inr ⟨h.1, ?_, h.2.2⟩
      exact dateLe_lt_trans (walkStep_curStart_mono conv rate st x) h.2.1

theorem walk_frozen (conv : String) (rate : ℚ) (l : List PeriodPP) :
    ∀ st : WalkState, (∀ x ∈ l, dateLe x.date st.curStart = true) →
      l.foldl (walkStep conv rate) st = st := by
  induction l with
  | nil => intro st _; rfl
  | cons x xs ih =>
    intro st hl
    have hstep : walkStep conv rate st x = st := by
      unfold walkStep
      rw [if_pos (hl x (by simp))]
    rw [List.foldl_cons, hstep]
    exact ih st (fun y hy => hl y (by simp [hy]))

theorem dateLe_ne_lt {a b : Date} (h1 : dateLe a b = true) (h2 : ¬a = b) :
    dateLt a b = true := by
  rcases (dateLe_iff a b).mp h1 with h | h
  · exact h
  · exact absurd h h2

theorem dateLt_le_false {a b : Date} (h : dateLt a b = true) :
    dateLe b a = false := by
  cases hx : dateLe b a
  · rfl
  · exact absurd (dateLt_le_trans h hx) (by simp [dateLt_irrefl])

theorem walkStep_chain (conv : String) (rate : ℚ) (st : WalkState) (x : PeriodPP)
    (b : ℚ) (hok : (walkStep conv rate st x).ok = true)
    (h0 : 0 ≤ st.tempBalance)
    (h1 : niFrom b (st.out.map (fun e => e.remainingBalance)) = true)
    (h2 : (st.out.map (fun e => e.remainingBalance)).getLastD b = st.tempBalance) :
    0 ≤ (walkStep conv rate st x).tempBalance ∧
    niFrom b ((walkStep conv rate st x).out.map (fun e => e.remainingBalance)) = true ∧
    ((walkStep conv rate st x).out.map (fun e => e.remainingBalance)).getLastD b =
      (walkStep conv rate st x).tempBalance := by
  by_cases hskip : dateLe x.date st.curStart = true
  · unfold walkStep
    rw [if_pos hskip]
    exact ⟨h0, h1, h2⟩
  · by_cases hamt : 0 < x.amount
    · unfold walkStep at hok ⊢
      rw [if_neg hskip, if_pos hamt] at hok ⊢
      simp only [Bool.and_eq_true, decide_eq_true_eq] at hok
      have hcov : x.amount ≤ st.tempBalance := hok.2
      have hnn : 0 ≤ st.tempBalance - x.amount := by linarith
      have hmax : max (st.tempBalance - x.amount) 0 = st.tempBalance - x.amount :=
        max_eq_left hnn
      refine ⟨?_, ?_, ?_⟩
      · rw [hmax]; exact hnn
      · simp only [List.map_append, List.map_cons, List.map_nil]
        rw [niFrom_append, h2, Bool.and_eq_true]
        refine ⟨h1, ?_⟩
        simp only [niFrom, Bool.and_eq_true, decide_eq_true_eq]
        exact ⟨by linarith, trivial⟩
      · simp only [List.map_append, List.map_cons, List.map_nil]
        rw [getLastD_append, hmax]
        rfl
    · unfold walkStep
      rw [if_neg hskip, if_neg hamt]
      exact ⟨h0, h1, h2⟩

theorem walk_chain (conv : String) (rate : ℚ) (l : List PeriodPP) :
    ∀ (st : WalkState) (b : ℚ),
      (l.foldl (walkStep conv rate) st).ok = true →
      0 ≤ st.tempBalance →
      niFrom b (st.out.map (fun e => e.remainingBalance)) = true →
      (st.out.map (fun e => e.remainingBalance)).getLastD b = st.tempBalance →
      0 ≤ (l.foldl (walkStep conv rate) st).tempBalance ∧
      niFrom b ((l.foldl (walkStep conv rate) st).out.map (fun e => e.remainingBalance)) = true ∧
      ((l.foldl (walkStep conv rate) st).out.map (fun e => e.remainingBalance)).getLastD b =
        (l.foldl (walkStep conv rate) st).tempBalance := by
  induction l with
  | nil => intro st b _ h0 h1 h2; exact ⟨h0, h1, h2⟩
  | cons x xs ih =>
    intro st b hok h0 h1 h2
    rw [List.foldl_cons] at hok ⊢
    have hsok : (walkStep conv rate st x).ok = true :=
      walk_ok_mono conv rate xs _ hok
    obtain ⟨g0, g1, g2⟩ := walkStep_chain conv rate st x b hsok h0 h1 h2
    exact ih _ b hok g0 g1 g2

theorem walk_emit (conv : String) (rate : ℚ) (D : Date) (a : ℚ) (ha : 0 < a)
    (l : List PeriodPP) :
    ∀ st : WalkState,
      dateLt st.curStart D = true →
      (∀ x ∈ l, dateLe x.date D = true) →
      (l.filter (fun x => decide (x.date = D))).head? = some ⟨D, a, 1⟩ →
      st.out.filter (fun e => decide (e.date = D)) = [] →
      ∃ b, ((l.foldl (walkStep conv rate) st).out).filter (fun e => decide (e.date = D)) =
        [{ isPartPayment := true, paymentNumber := 1, date := D, payment := a,
           principal := a, interest := 0, remainingBalance := b }] := by
  induction l with
  | nil =>
    intro st _ _ hfirst _
    simp at hfirst
  | cons x xs ih =>
    intro st hcur hl hfirst hout
    by_cases hxD : x.date = D
    · have hxval : x = ⟨D, a, 1⟩ := by
        rw [show (x :: xs).filter (fun y => decide (y.date = D)) =
            x :: xs.filter (fun y => decide (y.date = D)) by simp [List.filter_cons, hxD]] at hfirst
        simpa using hfirst
      have hskip : dateLe x.date st.curStart = false := by
        rw [hxD]
        exact dateLt_le_false hcur
      have hamt : 0 < x.amount := by rw [hxval]; exact ha
      have hstep : walkStep conv rate st x =
          { periodInterest := st.periodInterest +
              subPeriodInterest conv st.tempBalance rate st.curStart x.date
            curStart := x.date
            tempBalance := max (st.tempBalance - x.amount) 0
            out := st.out ++
              [{ isPartPayment := true, paymentNumber := x.originalIndex, date := x.date,
                 payment := x.amount, principal := x.amount, interest := 0,
                 remainingBalance := st.tempBalance - x.amount }]
            ok := st.ok && decide (x.amount ≤ st.tempBalance) } := by
        unfold walkStep
        rw [if_neg (by simp [hskip]), if_pos hamt]
      rw [List.foldl_cons, hstep]
      rw [walk_frozen conv rate xs _ ?hfr]
      case hfr =>
        intro y hy
        show dateLe y.date x.date = true
        rw [hxD]
        exact hl y (by simp [hy])
      refine ⟨st.tempBalance - a, ?_⟩
      dsimp only
      rw [List.filter_append, hout, List.nil_append, hxval]
      simp [List.filter_cons]
    · have hfirst2 : (xs.filter (fun y => decide (y.date = D))).head? = some ⟨D, a, 1⟩ := by
        rwa [show (x :: xs).filter (fun y => decide (y.date = D)) =
          xs.filter (fun y => decide (y.date = D)) by simp [List.filter_cons, hxD]] at hfirst
      have hl2 : ∀ y ∈ xs, dateLe y.date D = true := fun y hy => hl y (by simp [hy])
      rw [List.foldl_cons]
      by_cases hskip : dateLe x.date st.curStart = true
      · have hstep : walkStep conv rate st x = st := by
          unfold walkStep
          rw [if_pos hskip]
        rw [hstep]
        exact ih st hcur hl2 hfirst2 hout
      · have hxlt : dateLt x.date D = true :=
          dateLe_ne_lt (hl x (by simp)) hxD
        by_cases hamt : 0 < x.amount
        · have hstep : walkStep conv rate st x =
              { periodInterest := st.periodInterest +
                  subPeriodInterest conv st.tempBalance rate st.curStart x.date
                curStart := x.date
                tempBalance := max (st.tempBalance - x.amount) 0
                out := st.out ++
                  [{ isPartPayment := true, paymentNumber := x.originalIndex, date := x.date,
                     payment := x.amount, principal := x.amount, interest := 0,
                     remainingBalance := st.tempBalance - x.amount }]
                ok := st.ok && decide (x.amount ≤ st.tempBalance) } := by
            unfold walkStep
            rw [if_neg (by simp [hskip]), if_pos hamt]
          rw [hstep]
          apply ih _ hxlt hl2 hfirst2
          dsimp only
          rw [List.filter_append, hout, List.nil_append]
          simp [List.filter_cons, hxD]
        · have hstep : walkStep conv rate st x =
              { st with
                periodInterest := st.periodInterest +
                  subPeriodInterest conv st.tempBalance rate st.curStart x.date
                curStart := x.date } := by
            unfold walkStep
            rw [if_neg (by simp [hskip]), if_neg hamt]
          rw [hstep]
          exact ih _ hxlt hl2 hfirst2 hout

/-! ## Monthly step and outer loop lemmas -/

theorem processMonth_eq (conv : String) (rate mp : ℚ) (pps : List PartPayment)
    (num : ℕ) (st : CalcState) :
    processMonth conv rate mp pps num st =
      { currentDate := nextPaymentDate st.currentDate
        remainingBalance := monthRem conv rate mp pps st
        schedule := st.schedule ++ (monthWalk conv rate pps st).out ++
          [monthInstEntry conv rate mp pps num st]
        ok := st.ok && ((monthWalk conv rate pps st).ok &&
          decide ((monthWalk conv rate pps st).periodInterest ≤ mp)) } := rfl

theorem runFrom_zero (conv : String) (rate mp : ℚ) (pps : List PartPayment)
    (num : ℕ) (st : CalcState) : runFrom conv rate mp pps 0 num st = st := rfl

theorem runFrom_succ (conv : String) (rate mp : ℚ) (pps : List PartPayment)
    (k num : ℕ) (st : CalcState) :
    runFrom conv rate mp pps (k + 1) num st =
      if (processMonth conv rate mp pps num st).remainingBalance ≤ 0 then
        processMonth conv rate mp pps num st
      else runFrom conv rate mp pps k (num + 1) (processMonth conv rate mp pps num st) := rfl

theorem periodList_dates (pps : List PartPayment) (cur next : Date) :
    ∀ x ∈ periodList pps cur next, dateLe x.date next = true := by
  intro x hx
  unfold periodList at hx
  rcases List.mem_append.mp hx with hx | hx
  · have hx2 : x ∈ collectPeriodPPs pps cur next := (sortPPs_perm _).mem_iff.mp hx
    rw [collect_eq] at hx2
    obtain ⟨pp, hpp, rfl⟩ := List.mem_map.mp hx2
    have hp := List.of_mem_filter hpp
    simp only [Bool.and_eq_true] at hp
    exact hp.2
  · simp only [List.mem_singleton] at hx
    subst hx
    exact dateLe_refl _

theorem month_out_dates (conv : String) (rate : ℚ) (pps : List PartPayment)
    (st : CalcState) :
    ∀ e ∈ (monthWalk conv rate pps st).out,
      e.isPartPayment = true ∧ dateLt st.currentDate e.date = true ∧
        dateLe e.date (nextPaymentDate st.currentDate) = true := by
  intro e he
  unfold monthWalk runWalk at he
  have hspec := walk_out_spec conv rate (nextPaymentDate st.currentDate)
    (periodList pps st.currentDate (nextPaymentDate st.currentDate))
    { periodInterest := 0, curStart := st.currentDate,
      tempBalance := st.remainingBalance, out := [], ok := true }
    (periodList_dates pps st.currentDate (nextPaymentDate st.currentDate)) e he
  rcases hspec with h | h
  · simp at h
  · exact ⟨h.1, h.2.1, h.2.2⟩

theorem processMonth_ok_mono (conv : String) (rate mp : ℚ) (pps : List PartPayment)
    (num : ℕ) (st : CalcState)
    (h : (processMonth conv rate mp pps num st).ok = true) : st.ok = true := by
  rw [processMonth_eq] at h
  simp only [Bool.and_eq_true] at h
  exact h.1

theorem run_mono (conv : String) (rate mp : ℚ) (pps : List PartPayment) :
    ∀ (k num : ℕ) (st : CalcState),
      dateLe st.currentDate (runFrom conv rate mp pps k num st).currentDate = true := by
  intro k
  induction k with
  | zero => intro num st; exact dateLe_refl _
  | succ k ih =>
    intro num st
    rw [runFrom_succ]
    split
    · exact dateLe_of_lt (dateLt_next _)
    · refine dateLe_trans (dateLe_of_lt (dateLt_next st.currentDate)) ?_
      exact ih (num + 1) (processMonth conv rate mp pps num st)

theorem run_ok_mono (conv : String) (rate mp : ℚ) (pps : List PartPayment) :
    ∀ (k num : ℕ) (st : CalcState),
      (runFrom conv rate mp pps k num st).ok = true → st.ok = true := by
  intro k
  induction k with
  | zero => intro num st h; exact h
  | succ k ih =>
    intro num st h
    rw [runFrom_succ] at h
    split at h
    · exact processMonth_ok_mono conv rate mp pps num st h
    · exact processMonth_ok_mono conv rate mp pps num st (ih (num + 1) _ h)

theorem run_tail (conv : String) (rate mp : ℚ) (pps : List PartPayment) :
    ∀ (k num : ℕ) (st : CalcState),
      ∃ t, (runFrom conv rate mp pps k num st).schedule = st.schedule ++ t ∧
        ∀ e ∈ t, dateLt st.currentDate e.date = true := by
  intro k
  induction k with
  | zero =>
    intro num st
    exact ⟨[], by rw [runFrom_zero]; simp, by simp⟩
  | succ k ih =>
    intro num st
    rw [runFrom_succ]
    have hblock : ∀ e ∈ (monthWalk conv rate pps st).out ++
        [monthInstEntry conv rate mp pps num st], dateLt st.currentDate e.date = true := by
      intro e he
      rcases List.mem_append.mp he with he | he
      · exact (month_out_dates conv rate pps st e he).2.1
      · simp only [List.mem_singleton] at he
        subst he
        exact dateLt_next _
    split
    · refine ⟨(monthWalk conv rate pps st).out ++ [monthInstEntry conv rate mp pps num st],
        ?_, hblock⟩
      rw [processMonth_eq]
      simp [List.append_assoc]
    · obtain ⟨t2, ht2, ht2d⟩ := ih (num + 1) (processMonth conv rate mp pps num st)
      refine ⟨((monthWalk conv rate pps st).out ++ [monthInstEntry conv rate mp pps num st]) ++ t2,
        ?_, ?_⟩
      · rw [ht2, processMonth_eq]
        simp [List.append_assoc]
      · intro e he
        rcases List.mem_append.mp he with he | he
        · exact hblock e he
        · refine dateLt_trans ?_ (ht2d e he)
          exact dateLt_next _

theorem monthWalk_eq_foldl (conv : String) (rate : ℚ) (pps : List PartPayment)
    (st : CalcState) :
    monthWalk conv rate pps st =
      (periodList pps st.currentDate (nextPaymentDate st.currentDate)).foldl
        (walkStep conv rate)
        { periodInterest := 0, curStart := st.currentDate,
          tempBalance := st.remainingBalance, out := [], ok := true } := rfl

theorem month_chain (conv : String) (rate mp : ℚ) (pps : List PartPayment)
    (num : ℕ) (st : CalcState) (b : ℚ)
    (hok : (processMonth conv rate mp pps num st).ok = true)
    (h0 : 0 ≤ st.remainingBalance)
    (h1 : niFrom b (st.schedule.map (fun e => e.remainingBalance)) = true)
    (h2 : (st.schedule.map (fun e => e.remainingBalance)).getLastD b = st.remainingBalance) :
    0 ≤ (processMonth conv rate mp pps num st).remainingBalance ∧
    niFrom b ((processMonth conv rate mp pps num st).schedule.map
      (fun e => e.remainingBalance)) = true ∧
    ((processMonth conv rate mp pps num st).schedule.map
      (fun e => e.remainingBalance)).getLastD b =
      (processMonth conv rate mp pps num st).remainingBalance := by
  rw [processMonth_eq] at hok ⊢
  dsimp only at hok ⊢
  simp only [Bool.and_eq_true, decide_eq_true_eq] at hok
  obtain ⟨hstok, hwok, hint⟩ := hok
  have hw := walk_chain conv rate
    (periodList pps st.currentDate (nextPaymentDate st.currentDate))
    { periodInterest := 0, curStart := st.currentDate,
      tempBalance := st.remainingBalance, out := [], ok := true }
    st.remainingBalance (by rw [← monthWalk_eq_foldl]; exact hwok) h0 (by rfl) (by rfl)
  rw [← monthWalk_eq_foldl] at hw
  obtain ⟨hT0, hwni, hwlast⟩ := hw
  have hPmin : monthPrincipal conv rate mp pps st ≤ (monthWalk conv rate pps st).tempBalance :=
    min_le_right _ _
  have hP0 : 0 ≤ monthPrincipal conv rate mp pps st := by
    unfold monthPrincipal
    apply le_min
    · linarith
    · exact hT0
  have hR0 : 0 ≤ (monthWalk conv rate pps st).tempBalance - monthPrincipal conv rate mp pps st := by
    linarith
  have hRval : monthRem conv rate mp pps st =
      (monthWalk conv rate pps st).tempBalance - monthPrincipal conv rate mp pps st := by
    unfold monthRem
    exact max_eq_left hR0
  have hRle : monthRem conv rate mp pps st ≤ (monthWalk conv rate pps st).tempBalance := by
    rw [hRval]; linarith
  have hRnn : 0 ≤ monthRem conv rate mp pps st := by rw [hRval]; exact hR0
  have hInstBal : (monthInstEntry conv rate mp pps num st).remainingBalance =
      monthRem conv rate mp pps st := by
    unfold monthInstEntry
    exact max_eq_left hRnn
  refine ⟨hRnn, ?_, ?_⟩
  · simp only [List.map_append, List.map_cons, List.map_nil]
    rw [niFrom_append, niFrom_append, Bool.and_eq_true, Bool.and_eq_true]
    refine ⟨⟨h1, ?_⟩, ?_⟩
    · rw [h2]; exact hwni
    · rw [getLastD_append, h2, hwlast]
      simp only [niFrom, Bool.and_eq_true, decide_eq_true_eq, hInstBal]
      exact ⟨hRle, trivial⟩
  · simp only [List.map_append, List.map_cons, List.map_nil]
    rw [getLastD_append, getLastD_append]
    simp only [List.getLastD_cons, List.getLastD_nil]
    exact hInstBal

theorem run_chain (conv : String) (rate mp : ℚ) (pps : List PartPayment) :
    ∀ (k num : ℕ) (st : CalcState) (b : ℚ),
      (runFrom conv rate mp pps k num st).ok = true →
      0 ≤ st.remainingBalance →
      niFrom b (st.schedule.map (fun e => e.remainingBalance)) = true →
      (st.schedule.map (fun e => e.remainingBalance)).getLastD b = st.remainingBalance →
      niFrom b ((runFrom conv rate mp pps k num st).schedule.map
        (fun e => e.remainingBalance)) = true := by
  intro k
  induction k with
  | zero => intro num st b _ _ h1 _; rw [runFrom_zero]; exact h1
  | succ k ih =>
    intro num st b hok h0 h1 h2
    rw [runFrom_succ] at hok ⊢
    split at hok
    · rename_i hbr
      rw [if_pos hbr]
      exact (month_chain conv rate mp pps num st b hok h0 h1 h2).2.1
    · rename_i hbr
      rw [if_neg hbr]
      have hmok : (processMonth conv rate mp pps num st).ok = true :=
        run_ok_mono conv rate mp pps k (num + 1) _ hok
      obtain ⟨g0, g1, g2⟩ := month_chain conv rate mp pps num st b hmok h0 h1 h2
      exact ih (num + 1) _ b hok g0 g1 g2

theorem month_countInst (conv : String) (rate mp : ℚ) (pps : List PartPayment)
    (num : ℕ) (st : CalcState) :
    countInstallments (processMonth conv rate mp pps num st).schedule =
      countInstallments st.schedule + 1 := by
  rw [processMonth_eq]
  dsimp only
  unfold countInstallments
  rw [List.filter_append, List.filter_append, List.length_append, List.length_append]
  have hout : ((monthWalk conv rate pps st).out.filter (fun e => !e.isPartPayment)).length = 0 := by
    rw [List.length_eq_zero]
    apply List.filter_eq_nil_iff.mpr
    intro e he
    have hp := (month_out_dates conv rate pps st e he).1
    simp [hp]
  have hinst : (([monthInstEntry conv rate mp pps num st] :
      List Entry).filter (fun e => !e.isPartPayment)).length = 1 := by
    simp [monthInstEntry]
  omega

theorem run_count (conv : String) (rate mp : ℚ) (pps : List PartPayment) :
    ∀ (k num : ℕ) (st : CalcState),
      countInstallments (runFrom conv rate mp pps k num st).schedule ≤
        countInstallments st.schedule + k := by
  intro k
  induction k with
  | zero => intro num st; rw [runFrom_zero]; omega
  | succ k ih =>
    intro num st
    rw [runFrom_succ]
    split
    · rw [month_countInst]; omega
    · have h := ih (num + 1) (processMonth conv rate mp pps num st)
      rw [month_countInst] at h
      omega

theorem monthRem_nonneg (conv : String) (rate mp : ℚ) (pps : List PartPayment)
    (st : CalcState) : 0 ≤ monthRem conv rate mp pps st :=
  le_max_right _ _

theorem monthInst_rem (conv : String) (rate mp : ℚ) (pps : List PartPayment)
    (num : ℕ) (st : CalcState) :
    (monthInstEntry conv rate mp pps num st).remainingBalance =
      monthRem conv rate mp pps st := by
  unfold monthInstEntry
  exact max_eq_left (monthRem_nonneg conv rate mp pps st)

theorem run_last (conv : String) (rate mp : ℚ) (pps : List PartPayment) :
    ∀ (k num : ℕ) (st : CalcState),
      (∀ e ∈ st.schedule, e.isPartPayment = false → 0 < e.remainingBalance) →
      num = countInstallments st.schedule + 1 →
      ∀ u e v, (runFrom conv rate mp pps k num st).schedule = u ++ e :: v →
        e.isPartPayment = false → e.remainingBalance = 0 →
        v = [] ∧ e.paymentNumber =
          countInstallments (runFrom conv rate mp pps k num st).schedule := by
  intro k
  induction k with
  | zero =>
    intro num st hQ _ u e v heq hpart hrem
    rw [runFrom_zero] at heq
    have he : e ∈ st.schedule := by
      rw [heq]
      simp
    have := hQ e he hpart
    rw [hrem] at this
    exact absurd this (by norm_num)
  | succ k ih =>
    intro num st hQ hnum u e v heq hpart hrem
    rw [runFrom_succ] at heq ⊢
    split at heq
    · rename_i hbr
      rw [if_pos hbr]
      rw [processMonth_eq] at heq
      dsimp only at heq
      rcases List.eq_nil_or_concat v with rfl | ⟨v1, z, rfl⟩
      · constructor
        · rfl
        · have hlast : e = monthInstEntry conv rate mp pps num st := by
            have hl1 : (u ++ [e]).getLast? = some e := List.getLast?_concat u
            have hl2 : (st.schedule ++ (monthWalk conv rate pps st).out ++
                [monthInstEntry conv rate mp pps num st]).getLast? =
                some (monthInstEntry conv rate mp pps num st) := List.getLast?_concat _
            rw [heq, hl1] at hl2
            exact Option.some_inj.mp hl2
          rw [month_countInst, hlast]
          unfold monthInstEntry
          dsimp only
          omega
      · exfalso
        have heq2 : (u ++ e :: v1) ++ [z] =
            (st.schedule ++ (monthWalk conv rate pps st).out) ++
              [monthInstEntry conv rate mp pps num st] := by
          rw [heq]
          simp [List.concat_eq_append]
        have hpre : u ++ e :: v1 = st.schedule ++ (monthWalk conv rate pps st).out :=
          (List.append_inj' heq2 (by simp)).1
        have hemem : e ∈ st.schedule ++ (monthWalk conv rate pps st).out := by
          rw [← hpre]
          simp
        rcases List.mem_append.mp hemem with hm | hm
        · have := hQ e hm hpart
          rw [hrem] at this
          exact absurd this (by norm_num)
        · have := (month_out_dates conv rate pps st e hm).1
          rw [hpart] at this
          simp at this
    · rename_i hbr
      rw [if_neg hbr]
      have hQ2 : ∀ x ∈ (processMonth conv rate mp pps num st).schedule,
          x.isPartPayment = false → 0 < x.remainingBalance := by
        intro x hx hxp
        rw [processMonth_eq] at hx
        dsimp only at hx
        rcases List.mem_append.mp hx with hx | hx
        · rcases List.mem_append.mp hx with hx | hx
          · exact hQ x hx hxp
          · have := (month_out_dates conv rate pps st x hx).1
            rw [hxp] at this
            simp at this
        · simp only [List.mem_singleton] at hx
          subst hx
          rw [monthInst_rem]
          rw [processMonth_eq] at hbr
          dsimp only at hbr
          rcases lt_or_le 0 (monthRem conv rate mp pps st) with h | h
          · exact h
          · exact absurd (le_antisymm h (monthRem_nonneg conv rate mp pps st)) (by
              intro hz
              exact hbr (le_of_eq hz))
      have hnum2 : num + 1 =
          countInstallments (processMonth conv rate mp pps num st).schedule + 1 := by
        rw [month_countInst]
        omega
      exact ih (num + 1) _ hQ2 hnum2 u e v heq hpart hrem

/-! ## Frame lemmas: part payments outside a period do not matter -/

theorem collect_frame (l1 l2 : List PartPayment) (q : PartPayment) (cur next : Date)
    (hq : (dateLe cur q.date && dateLe q.date next) = false) :
    collectPeriodPPs (l1 ++ q :: l2) cur next = collectPeriodPPs (l1 ++ l2) cur next := by
  rw [collect_eq, collect_eq]
  congr 1
  rw [List.filter_append, List.filter_append, List.filter_cons]
  simp [hq]

theorem processMonth_frame (conv : String) (rate mp : ℚ) (l1 l2 : List PartPayment)
    (q : PartPayment) (num : ℕ) (st : CalcState)
    (hq : (dateLe st.currentDate q.date &&
      dateLe q.date (nextPaymentDate st.currentDate)) = false) :
    processMonth conv rate mp (l1 ++ q :: l2) num st =
      processMonth conv rate mp (l1 ++ l2) num st := by
  have hc := collect_frame l1 l2 q st.currentDate (nextPaymentDate st.currentDate) hq
  simp only [processMonth, periodList, hc]

theorem run_frame_lt (conv : String) (rate mp : ℚ) (l1 l2 : List PartPayment)
    (q : PartPayment) :
    ∀ (k num : ℕ) (st : CalcState), dateLt q.date st.currentDate = true →
      runFrom conv rate mp (l1 ++ q :: l2) k num st =
        runFrom conv rate mp (l1 ++ l2) k num st := by
  intro k
  induction k with
  | zero => intro num st _; rfl
  | succ k ih =>
    intro num st hlt
    have hq : (dateLe st.currentDate q.date &&
        dateLe q.date (nextPaymentDate st.currentDate)) = false := by
      rw [dateLt_le_false hlt]
      rfl
    have hm := processMonth_frame conv rate mp l1 l2 q num st hq
    rw [runFrom_succ, runFrom_succ, hm]
    by_cases hbr : (processMonth conv rate mp (l1 ++ l2) num st).remainingBalance ≤ 0
    · rw [if_pos hbr, if_pos hbr]
    · rw [if_neg hbr, if_neg hbr]
      apply ih (num + 1)
      exact dateLt_trans hlt (dateLt_next st.currentDate)

theorem run_frame_gt (conv : String) (rate mp : ℚ) (l1 l2 : List PartPayment)
    (q : PartPayment) :
    ∀ (k num : ℕ) (st : CalcState),
      dateLt (runFrom conv rate mp (l1 ++ l2) k num st).currentDate q.date = true →
      runFrom conv rate mp (l1 ++ q :: l2) k num st =
        runFrom conv rate mp (l1 ++ l2) k num st := by
  intro k
  induction k with
  | zero => intro num st _; rfl
  | succ k ih =>
    intro num st hgt
    rw [runFrom_succ] at hgt
    have hnextlt : dateLt (nextPaymentDate st.currentDate) q.date = true := by
      by_cases hbr : (processMonth conv rate mp (l1 ++ l2) num st).remainingBalance ≤ 0
      · rw [if_pos hbr] at hgt
        exact hgt
      · rw [if_neg hbr] at hgt
        exact dateLe_lt_trans
          (run_mono conv rate mp (l1 ++ l2) k (num + 1)
            (processMonth conv rate mp (l1 ++ l2) num st)) hgt
    have hq : (dateLe st.currentDate q.date &&
        dateLe q.date (nextPaymentDate st.currentDate)) = false := by
      rw [dateLt_le_false hnextlt]
      simp
    have hm := processMonth_frame conv rate mp l1 l2 q num st hq
    rw [runFrom_succ, runFrom_succ, hm]
    by_cases hbr : (processMonth conv rate mp (l1 ++ l2) num st).remainingBalance ≤ 0
    · rw [if_pos hbr, if_pos hbr]
    · rw [if_neg hbr, if_neg hbr]
      apply ih (num + 1)
      rw [if_neg hbr] at hgt
      exact hgt

/-! ## Emission of a part payment dated on an installment date (C9 support) -/

theorem date_trichotomy (a b : Date) :
    dateLt a b = true ∨ a = b ∨ dateLt b a = true := by
  rw [dateLt_iff, dateLt_iff, date_ext_iff]
  omega

theorem map_filter_swap (f : PartPayment → PeriodPP) (p : PeriodPP → Bool)
    (l : List PartPayment) :
    (l.map f).filter p = (l.filter (fun x => p (f x))).map f := by
  induction l with
  | nil => rfl
  | cons x xs ih =>
    rw [List.map_cons, List.filter_cons, List.filter_cons]
    by_cases hx : p (f x) = true
    · rw [if_pos hx, if_pos hx, List.map_cons, ih]
    · rw [if_neg hx, if_neg hx, ih]

theorem collect_filter_date (pps : List PartPayment) (cur next D : Date) :
    (collectPeriodPPs pps cur next).filter (fun x => decide (x.date = D)) =
      (pps.filter (fun p => decide (p.date = D) &&
        (dateLe cur p.date && dateLe p.date next))).map
        (fun p => ⟨p.date, p.amount, 1⟩) := by
  rw [collect_eq]
  induction pps with
  | nil => rfl
  | cons p ps ih =>
    rw [List.filter_cons, List.filter_cons]
    by_cases hR : (dateLe cur p.date && dateLe p.date next) = true
    · rw [if_pos hR, List.map_cons, List.filter_cons]
      by_cases hq : decide (p.date = D) = true
      · rw [if_pos hq, if_pos (by simp [hq, hR])]
        rw [List.map_cons, ih]
      · rw [if_neg hq, if_neg (by simp [hq])]
        exact ih
    · rw [if_neg hR, if_neg (by simp [hR])]
      exact ih

theorem run_c9 (conv : String) (rate mp : ℚ) (pps : List PartPayment) (D : Date)
    (a : ℚ) (ha : 0 < a)
    (hppf : pps.filter (fun p => decide (p.date = D)) = [⟨D, a⟩]) :
    ∀ (k num : ℕ) (st : CalcState),
      (∀ e ∈ st.schedule, dateLt e.date D = true) →
      dateLt st.currentDate D = true →
      (∃ e ∈ (runFrom conv rate mp pps k num st).schedule,
        e.isPartPayment = false ∧ e.date = D) →
      ∃ b inst,
        (runFrom conv rate mp pps k num st).schedule.filter
          (fun e => decide (e.date = D)) =
          [{ isPartPayment := true, paymentNumber := 1, date := D, payment := a,
             principal := a, interest := 0, remainingBalance := b }, inst] ∧
        inst.isPartPayment = false := by
  intro k
  induction k with
  | zero =>
    intro num st hsched hcur hinst
    rw [runFrom_zero] at hinst
    obtain ⟨e, he, _, heD⟩ := hinst
    have hlt := hsched e he
    rw [heD, dateLt_irrefl] at hlt
    exact absurd hlt (by simp)
  | succ k ih =>
    intro num st hsched hcur hinst
    rw [runFrom_succ] at hinst ⊢
    by_cases hD : nextPaymentDate st.currentDate = D
    · -- the month whose installment date is D
      have hstf : st.schedule.filter (fun e => decide (e.date = D)) = [] := by
        apply List.filter_eq_nil_iff.mpr
        intro e he
        simp [dateLt_ne (hsched e he)]
      have hcollect2 : (collectPeriodPPs pps st.currentDate
          (nextPaymentDate st.currentDate)).filter
          (fun x => decide (x.date = D)) = [⟨D, a, 1⟩] := by
        rw [collect_filter_date]
        rw [List.filter_congr (fun p _ => Bool.and_comm (decide (p.date = D))
          (dateLe st.currentDate p.date && dateLe p.date (nextPaymentDate st.currentDate)))]
        rw [← List.filter_filter, hppf]
        have hin : (dateLe st.currentDate (⟨D, a⟩ : PartPayment).date &&
            dateLe (⟨D, a⟩ : PartPayment).date (nextPaymentDate st.currentDate)) = true := by
          dsimp only
          rw [hD, dateLe_of_lt hcur, dateLe_refl]
          rfl
        rw [List.filter_cons, if_pos hin]
        rfl
      have hsorted : (sortPPs (collectPeriodPPs pps st.currentDate
          (nextPaymentDate st.currentDate))).filter
          (fun x => decide (x.date = D)) = [⟨D, a, 1⟩] := by
        apply List.perm_singleton.mp
        have hp := (sortPPs_perm (collectPeriodPPs pps st.currentDate
          (nextPaymentDate st.currentDate))).filter (fun x => decide (x.date = D))
        rw [hcollect2] at hp
        exact hp
      have hperiodf : ((periodList pps st.currentDate
          (nextPaymentDate st.currentDate)).filter
          (fun x => decide (x.date = D))).head? = some ⟨D, a, 1⟩ := by
        unfold periodList
        rw [List.filter_append, hsorted]
        rfl
      have hl : ∀ x ∈ periodList pps st.currentDate (nextPaymentDate st.currentDate),
          dateLe x.date D = true := by
        intro x hx
        rw [← hD]
        exact periodList_dates pps _ _ x hx
      have hwalk := walk_emit conv rate D a ha
        (periodList pps st.currentDate (nextPaymentDate st.currentDate))
        { periodInterest := 0, curStart := st.currentDate,
          tempBalance := st.remainingBalance, out := [], ok := true }
        hcur hl hperiodf rfl
      rw [← monthWalk_eq_foldl] at hwalk
      obtain ⟨b, hwf⟩ := hwalk
      have hinstf : (([monthInstEntry conv rate mp pps num st] : List Entry)).filter
          (fun e => decide (e.date = D)) = [monthInstEntry conv rate mp pps num st] := by
        have : (monthInstEntry conv rate mp pps num st).date = D := hD
        simp [this]
      have hblockf : (processMonth conv rate mp pps num st).schedule.filter
          (fun e => decide (e.date = D)) =
          [{ isPartPayment := true, paymentNumber := 1, date := D, payment := a,
             principal := a, interest := 0, remainingBalance := b },
           monthInstEntry conv rate mp pps num st] := by
        rw [processMonth_eq]
        dsimp only
        rw [List.filter_append, List.filter_append, hstf, hwf, hinstf]
        rfl
      by_cases hbr : (processMonth conv rate mp pps num st).remainingBalance ≤ 0
      · rw [if_pos hbr]
        exact ⟨b, monthInstEntry conv rate mp pps num st, hblockf, rfl⟩
      · rw [if_neg hbr]
        obtain ⟨t, hts, htd⟩ := run_tail conv rate mp pps k (num + 1)
          (processMonth conv rate mp pps num st)
        have htf : t.filter (fun e => decide (e.date = D)) = [] := by
          apply List.filter_eq_nil_iff.mpr
          intro e he
          have h2 := htd e he
          have h3 : dateLt D e.date = true := by
            rw [← hD]
            exact h2
          have h4 : ¬(e.date = D) := fun hh => dateLt_ne h3 hh.symm
          simp [h4]
        rw [hts, List.filter_append, hblockf, htf, List.append_nil]
        exact ⟨b, monthInstEntry conv rate mp pps num st, rfl, rfl⟩
    · have hblock_lt : ∀ hlt : dateLt (nextPaymentDate st.currentDate) D = true,
          ∀ e ∈ (processMonth conv rate mp pps num st).schedule, dateLt e.date D = true := by
        intro hlt e he
        rw [processMonth_eq] at he
        dsimp only at he
        rcases List.mem_append.mp he with he | he
        · rcases List.mem_append.mp he with he | he
          · exact hsched e he
          · exact dateLe_lt_trans (month_out_dates conv rate pps st e he).2.2 hlt
        · simp only [List.mem_singleton] at he
          subst he
          exact hlt
      rcases date_trichotomy (nextPaymentDate st.currentDate) D with hlt | heq | hgt
      · -- the month ends strictly before D: nothing dated D can appear this month
        by_cases hbr : (processMonth conv rate mp pps num st).remainingBalance ≤ 0
        · rw [if_pos hbr] at hinst ⊢
          obtain ⟨e, he, _, heD⟩ := hinst
          have h2 := hblock_lt hlt e he
          rw [heD, dateLt_irrefl] at h2
          exact absurd h2 (by simp)
        · rw [if_neg hbr] at hinst ⊢
          exact ih (num + 1) (processMonth conv rate mp pps num st)
            (hblock_lt hlt) hlt hinst
      · exact absurd heq hD
      · -- the month jumps over D: the final schedule has no installment dated D
        exfalso
        by_cases hbr : (processMonth conv rate mp pps num st).remainingBalance ≤ 0
        · rw [if_pos hbr] at hinst
          obtain ⟨e, he, hep, heD⟩ := hinst
          rw [processMonth_eq] at he
          dsimp only at he
          rcases List.mem_append.mp he with he | he
          · rcases List.mem_append.mp he with he | he
            · have h2 := hsched e he
              rw [heD, dateLt_irrefl] at h2
              exact absurd h2 (by simp)
            · have h2 := (month_out_dates conv rate pps st e he).1
              rw [hep] at h2
              simp at h2
          · simp only [List.mem_singleton] at he
            subst he
            exact hD heD
        · rw [if_neg hbr] at hinst
          obtain ⟨e, he, hep, heD⟩ := hinst
          obtain ⟨t, hts, htd⟩ := run_tail conv rate mp pps k (num + 1)
            (processMonth conv rate mp pps num st)
          rw [hts] at he
          rcases List.mem_append.mp he with he | he
          · rw [processMonth_eq] at he
            dsimp only at he
            rcases List.mem_append.mp he with he | he
            · rcases List.mem_append.mp he with he | he
              · have h2 := hsched e he
                rw [heD, dateLt_irrefl] at h2
                exact absurd h2 (by simp)
              · have h2 := (month_out_dates conv rate pps st e he).1
                rw [hep] at h2
                simp at h2
            · simp only [List.mem_singleton] at he
              subst he
              exact hD heD
          · have h2 := htd e he
            have h3 : dateLt D e.date = true := dateLt_trans hgt h2
            rw [heD] at h3
            rw [dateLt_irrefl] at h3
            exact absurd h3 (by simp)

/-! ## Claim theorems -/

set_option maxRecDepth 100000 in
/-- C1: evaluation at the failing input.  `c1Loan` has two part payments
both dated 2023-01-10 (amounts 100 and 50).  The engine emits exactly one
part-payment row, labeled 1 with amount 100: the `original_index` filter
of lines 74-75 is vacuous (it requires a date both equal to and strictly
before itself), so every label is 1, and the zero-length sub-period guard
of line 89 drops the second same-date payment entirely instead of
emitting it with label 2. -/
theorem c1_same_date_labels :
    ((calculateSchedule c1Loan).filter (fun e => e.isPartPayment)).map
      (fun e => (e.paymentNumber, e.payment)) = [(1, 100)] := by
  with_unfolding_all decide

set_option maxRecDepth 100000 in
/-- C2 counterexample: construction succeeds for principal -100 (with a
recognised convention), so the claim that `computeSchedule` rejects every
input with principal at most 0 at construction time is false. -/
theorem c2_counterexample :
    (initLoanSchedule (-100) 5 10 ⟨2023, 1, 1⟩ [] actual365Tag).isOk = true := by
  with_unfolding_all decide

set_option maxRecDepth 100000 in
/-- C2 amended: construction raises the `ValueError` exactly when the
lowercased convention tag is neither `actual_365` nor `30_360`; principal,
rate and term are never validated at construction, whatever their
values. -/
theorem c2_amended (principal rate : ℚ) (years : ℕ) (start : Date)
    (pps : List PartPayment) (conv : String) :
    (∃ msg, initLoanSchedule principal rate years start pps conv = Except.error msg) ↔
      ¬(conv.toLower = actual365Tag ∨ conv.toLower = thirty360Tag) := by
  by_cases h : (conv.toLower == actual365Tag || conv.toLower == thirty360Tag) = true
  · have hp : conv.toLower = actual365Tag ∨ conv.toLower = thirty360Tag := by
      simpa using h
    simp only [initLoanSchedule, h, if_true]
    constructor
    · rintro ⟨msg, hmsg⟩
      exact absurd hmsg (by simp)
    · intro hv
      exact absurd hp hv
  · have hp : ¬(conv.toLower = actual365Tag ∨ conv.toLower = thirty360Tag) := by
      simpa using h
    simp only [initLoanSchedule, h, if_false]
    constructor
    · intro _
      exact hp
    · intro _
      exact ⟨convErrMsg, rfl⟩

set_option maxRecDepth 100000 in
/-- C3: evaluation at the failing input.  `c3Loan` carries a part payment
of 500 dated exactly on the loan start date 2023-01-01.  The guard of
line 89 (`end_date <= current_period_start: continue`) skips the whole
entry, so no part-payment row is emitted and the schedule is identical to
the one computed with no part payments at all: the payment is silently
dropped rather than applied with zero preceding interest. -/
theorem c3_start_date_payment_dropped :
    (calculateSchedule c3Loan).filter (fun e => e.isPartPayment) = [] ∧
    calculateSchedule c3Loan = calculateSchedule { c3Loan with partPayments := [] } := by
  constructor
  · with_unfolding_all decide
  · with_unfolding_all decide

set_option maxRecDepth 100000 in
/-- C4: evaluation at the failing input.  `c4Loan` applies a part payment
of 2000 against a balance of 1000; the emitted part-payment row records
`remaining_balance = -1000` because line 115 stores the unfloored
difference even though line 119 floors the running balance at 0. -/
theorem c4_negative_balance_recorded :
    ((calculateSchedule c4Loan).filter (fun e => e.isPartPayment)).map
      (fun e => e.remainingBalance) = [-1000] ∧
    ∃ e ∈ calculateSchedule c4Loan, e.remainingBalance < 0 := by
  constructor
  · with_unfolding_all decide
  · with_unfolding_all decide

set_option maxRecDepth 100000 in
/-- C5 counterexample: on `c5Loan` (valid input: positive principal, zero
rate, one-year term, a positive part payment) the emitted balance column
is -1200 followed by 0, which is increasing, so the balance sequence
across the full entry sequence is not non-increasing as claimed. -/
theorem c5_counterexample :
    nonIncreasingQ ((calculateSchedule c5Loan).map (fun e => e.remainingBalance)) = false := by
  with_unfolding_all decide

set_option maxRecDepth 100000 in
/-- C5 amended: for every input with a nonnegative principal in which
every applied part payment is at most the balance it is applied against
and every period interest is at most the level monthly payment (the
`calcOk` instrumentation flag), the balance column of the full entry
sequence is non-increasing. -/
theorem c5_amended (L : LoanSchedule) (h0 : 0 ≤ L.principal)
    (hok : calcOk L = true) :
    nonIncreasingQ ((calculateSchedule L).map (fun e => e.remainingBalance)) = true := by
  unfold calcOk runLoan at hok
  unfold calculateSchedule runLoan
  have h := run_chain L.dayCountConvention L.annualInterestRate (loanMonthlyPayment L)
    L.partPayments (L.loanTermYears * 12) 1
    { currentDate := L.startDate, remainingBalance := L.principal,
      schedule := [], ok := true }
    L.principal hok h0 (by rfl) (by rfl)
  exact nonIncreasingQ_of_niFrom h

set_option maxRecDepth 100000 in
/-- C5 witness: the amended statement applied to the concrete well-behaved
run `c5WitLoan`. -/
theorem c5_amended_witness :
    (0 ≤ c5WitLoan.principal ∧ calcOk c5WitLoan = true) ∧
    nonIncreasingQ ((calculateSchedule c5WitLoan).map
      (fun e => e.remainingBalance)) = true :=
  ⟨⟨by with_unfolding_all decide, by with_unfolding_all decide⟩,
   c5_amended c5WitLoan (by with_unfolding_all decide) (by with_unfolding_all decide)⟩

set_option maxRecDepth 100000 in
/-- C6 counterexample: on `c6Loan` the part payment consumes the whole
balance inside month 1 (its emitted row records balance 0), yet because
the interest accrued in month 1 exceeds the level payment, the negative
principal portion pushes the balance back above zero and an installment
is emitted for month 2.  So the recurrence does not stop after the month
in which the balance first reaches 0. -/
theorem c6_counterexample :
    (calculateSchedule c6Loan).map (fun e => (e.isPartPayment, e.paymentNumber)) =
      [(true, 1), (false, 1), (false, 2)] ∧
    ((calculateSchedule c6Loan).map (fun e => e.remainingBalance)).head? = some 0 := by
  constructor
  · with_unfolding_all decide
  · with_unfolding_all decide

/-- C6 amended: the installment count never exceeds the requested term;
the first installment row whose end-of-month balance is 0 is the last
entry of the schedule (the loop breaks immediately after emitting it),
and when its number is below the term the installment count stays
strictly below the term.  (A balance of 0 recorded mid-month on a
part-payment row does not stop the loop by itself: when the accrued
interest of the month exceeds the level payment the balance comes back
above zero, as the counterexample shows.) -/
theorem c6_amended (L : LoanSchedule) :
    countInstallments (calculateSchedule L) ≤ L.loanTermYears * 12 ∧
    ∀ u e v, calculateSchedule L = u ++ e :: v → e.isPartPayment = false →
      e.remainingBalance = 0 →
      v = [] ∧ (e.paymentNumber < L.loanTermYears * 12 →
        countInstallments (calculateSchedule L) < L.loanTermYears * 12) := by
  constructor
  · have h := run_count L.dayCountConvention L.annualInterestRate (loanMonthlyPayment L)
      L.partPayments (L.loanTermYears * 12) 1
      { currentDate := L.startDate, remainingBalance := L.principal,
        schedule := [], ok := true }
    unfold calculateSchedule runLoan
    have h2 : countInstallments (runFrom L.dayCountConvention L.annualInterestRate
        (loanMonthlyPayment L) L.partPayments (L.loanTermYears * 12) 1
        { currentDate := L.startDate, remainingBalance := L.principal,
          schedule := [], ok := true }).schedule ≤ 0 + L.loanTermYears * 12 := h
    omega
  · intro u e v heq hp hr
    unfold calculateSchedule runLoan at heq ⊢
    have h := run_last L.dayCountConvention L.annualInterestRate (loanMonthlyPayment L)
      L.partPayments (L.loanTermYears * 12) 1
      { currentDate := L.startDate, remainingBalance := L.principal,
        schedule := [], ok := true }
      (by intro x hx _; simp at hx) rfl u e v heq hp hr
    refine ⟨h.1, fun hlt => ?_⟩
    omega

set_option maxRecDepth 100000 in
/-- C6 witness: on `c6WitLoan` the part payment retires the loan in month
1 of a 12-month term; the theorem yields an installment count of 1, at
most and strictly below 12. -/
theorem c6_amended_witness :
    countInstallments (calculateSchedule c6WitLoan) ≤ c6WitLoan.loanTermYears * 12 ∧
    countInstallments (calculateSchedule c6WitLoan) < c6WitLoan.loanTermYears * 12 := by
  have h := c6_amended c6WitLoan
  refine ⟨h.1, ?_⟩
  have h2 := h.2 [⟨true, 1, ⟨2023, 1, 10⟩, 1200, 1200, 0, 0⟩]
    ⟨false, 1, ⟨2023, 2, 1⟩, 0, 0, 0, 0⟩ []
    (by with_unfolding_all decide) rfl rfl
  exact h2.2 (by with_unfolding_all decide)

/-- C7: under the `actual_365` convention the sub-period interest computed
by the engine equals the spec formula: balance times annual rate times the
actual day count of `[start, end)` divided by 366 when the start year is a
leap year (a year divisible by 4 and either not divisible by 100 or
divisible by 400), else 365 — the start year is used even across a year
boundary, and the code leap-year test agrees with that characterisation. -/
theorem c7_actual365_formula (bal rate : ℚ) (s e : Date) (h : dateLt s e = true) :
    subPeriodInterest actual365Tag bal rate s e = specActual365Interest bal rate s e ∧
    (isLeapYear s.year = true ↔
      (s.year % 4 = 0 ∧ (s.year % 100 ≠ 0 ∨ s.year % 400 = 0))) := by
  have hleap : isLeapYear s.year = true ↔
      (s.year % 4 = 0 ∧ (s.year % 100 ≠ 0 ∨ s.year % 400 = 0)) := by
    simp [isLeapYear]
  constructor
  · unfold subPeriodInterest specActual365Interest
    rw [if_pos (by simp)]
    by_cases hl : isLeapYear s.year = true
    · rw [if_pos hl, if_pos (hleap.mp hl)]
    · rw [if_neg hl, if_neg (fun hpp => hl (hleap.mpr hpp))]
  · exact hleap

/-- C7 witness: the formula instantiated on a concrete sub-period spanning
a year boundary out of leap year 2024. -/
theorem c7_witness :
    dateLt ⟨2024, 12, 31⟩ ⟨2025, 1, 31⟩ = true ∧
    subPeriodInterest actual365Tag 100 (1 / 10) ⟨2024, 12, 31⟩ ⟨2025, 1, 31⟩ =
      specActual365Interest 100 (1 / 10) ⟨2024, 12, 31⟩ ⟨2025, 1, 31⟩ :=
  ⟨by decide,
   (c7_actual365_formula 100 (1 / 10) ⟨2024, 12, 31⟩ ⟨2025, 1, 31⟩ (by decide)).1⟩

/-- C8: on every valid date the engine next-payment-date computation is
the spec operation (add one calendar month, then clamp the day-of-month to
the last valid day of the resulting month, using that month actual length
including leap-year February); consequently from the 31st of a month into
a 30-day month it yields day 30, and applied from day 30 into a 31-day
month it stays at day 30, never recovering day 31. -/
theorem c8_next_monthly_date (d : Date) (h : validDate d) :
    nextPaymentDate d = specNextMonthlyDate d ∧
    (d.day = 31 → daysInMonth (nextPaymentDate d).year (nextPaymentDate d).month = 30 →
      (nextPaymentDate d).day = 30) ∧
    (d.day = 30 → daysInMonth (nextPaymentDate d).year (nextPaymentDate d).month = 31 →
      (nextPaymentDate d).day = 30) := by
  refine ⟨?_, ?_, ?_⟩
  · unfold nextPaymentDate addOneMonth specNextMonthlyDate
    rw [date_ext_iff]
    refine ⟨rfl, rfl, ?_⟩
    dsimp only
    rw [min_def]
  · intro h31 hdm
    have hdm2 : daysInMonth (addOneMonth d).year (addOneMonth d).month = 30 := hdm
    show min d.day (daysInMonth (addOneMonth d).year (addOneMonth d).month) = 30
    rw [hdm2, h31]
    decide
  · intro h30 hdm
    have hdm2 : daysInMonth (addOneMonth d).year (addOneMonth d).month = 31 := hdm
    show min d.day (daysInMonth (addOneMonth d).year (addOneMonth d).month) = 30
    rw [hdm2, h30]
    decide

/-- C8 witness: 2024-03-31 maps to 2024-04-30 (31st into a 30-day month),
and 2024-04-30 maps to day 30 of May (a 31-day month), not day 31. -/
theorem c8_witness :
    validDate ⟨2024, 3, 31⟩ ∧ (nextPaymentDate ⟨2024, 3, 31⟩).day = 30 ∧
    validDate ⟨2024, 4, 30⟩ ∧ (nextPaymentDate ⟨2024, 4, 30⟩).day = 30 :=
  ⟨by decide,
   (c8_next_monthly_date ⟨2024, 3, 31⟩ (by decide)).2.1 rfl (by decide),
   by decide,
   (c8_next_monthly_date ⟨2024, 4, 30⟩ (by decide)).2.2 rfl (by decide)⟩

theorem run_months_or_last (conv : String) (rate mp : ℚ) (pps : List PartPayment) :
    ∀ (k num : ℕ) (st : CalcState), k = 0 ∨
      ∃ e ∈ (runFrom conv rate mp pps k num st).schedule,
        e.date = (runFrom conv rate mp pps k num st).currentDate := by
  intro k
  induction k with
  | zero => intro num st; exact Or.inl rfl
  | succ k ih =>
    intro num st
    right
    rw [runFrom_succ]
    by_cases hbr : (processMonth conv rate mp pps num st).remainingBalance ≤ 0
    · rw [if_pos hbr]
      refine ⟨monthInstEntry conv rate mp pps num st, ?_, rfl⟩
      rw [processMonth_eq]
      simp
    · rw [if_neg hbr]
      rcases ih (num + 1) (processMonth conv rate mp pps num st) with hk | ⟨e, he, hd⟩
      · subst hk
        rw [runFrom_zero]
        refine ⟨monthInstEntry conv rate mp pps num st, ?_, rfl⟩
        rw [processMonth_eq]
        simp
      · exact ⟨e, he, hd⟩

/-- C9: a part payment dated exactly on an installment due date that
actually appears in the schedule, when it is the only part payment with
that date and its amount is positive, is collected into the period ending
on that date and emitted exactly once, immediately before that
installment: filtering the whole schedule by that date yields exactly the
one part-payment row (payment = principal = amount, label 1, interest 0)
followed by the installment row, so the payment is not applied or emitted
a second time in the following period, whose start it also is. -/
theorem c9_installment_date_payment (L : LoanSchedule) (pp : PartPayment)
    (hppf : L.partPayments.filter (fun p => decide (p.date = pp.date)) = [pp])
    (ha : 0 < pp.amount)
    (hinst : ∃ e ∈ calculateSchedule L, e.isPartPayment = false ∧ e.date = pp.date) :
    ∃ b inst,
      (calculateSchedule L).filter (fun e => decide (e.date = pp.date)) =
        [{ isPartPayment := true, paymentNumber := 1, date := pp.date,
           payment := pp.amount, principal := pp.amount, interest := 0,
           remainingBalance := b }, inst] ∧
      inst.isPartPayment = false := by
  obtain ⟨D, a⟩ := pp
  unfold calculateSchedule runLoan at hinst ⊢
  have hstart : dateLt L.startDate D = true := by
    obtain ⟨e, he, _, heD⟩ := hinst
    obtain ⟨t, hts, htd⟩ := run_tail L.dayCountConvention L.annualInterestRate
      (loanMonthlyPayment L) L.partPayments (L.loanTermYears * 12) 1
      { currentDate := L.startDate, remainingBalance := L.principal,
        schedule := [], ok := true }
    rw [hts] at he
    rcases List.mem_append.mp he with he | he
    · simp at he
    · have h2 := htd e he
      rw [heD] at h2
      exact h2
  exact run_c9 L.dayCountConvention L.annualInterestRate (loanMonthlyPayment L)
    L.partPayments D a ha hppf (L.loanTermYears * 12) 1
    { currentDate := L.startDate, remainingBalance := L.principal,
      schedule := [], ok := true }
    (by intro x hx; simp at hx) hstart hinst

set_option maxRecDepth 100000 in
/-- C9 witness: on `c9Loan` the payment of 100 dated 2023-02-15 (the first
installment due date) is emitted exactly once, right before installment 1,
and never again. -/
theorem c9_witness :
    c9Loan.partPayments.filter (fun p => decide (p.date = ⟨2023, 2, 15⟩)) =
        [⟨⟨2023, 2, 15⟩, 100⟩] ∧
    (∃ b inst,
      (calculateSchedule c9Loan).filter (fun e => decide (e.date = ⟨2023, 2, 15⟩)) =
        [{ isPartPayment := true, paymentNumber := 1, date := ⟨2023, 2, 15⟩,
           payment := 100, principal := 100, interest := 0,
           remainingBalance := b }, inst] ∧
      inst.isPartPayment = false) :=
  ⟨by with_unfolding_all decide,
   c9_installment_date_payment c9Loan ⟨⟨2023, 2, 15⟩, 100⟩
     (by with_unfolding_all decide) (by with_unfolding_all decide)
     (by with_unfolding_all decide)⟩

/-- C10: a part payment whose date is strictly before the loan start date,
or strictly after every entry of the schedule computed without it (in
particular after the last installment date actually processed), is
silently ignored: removing it from the input list leaves the computed
schedule unchanged, so it produces no row, changes no balance and accrues
no interest, with no error. -/
theorem c10_out_of_range_ignored (L : LoanSchedule) (l1 l2 : List PartPayment)
    (q : PartPayment)
    (hcase : dateLt q.date L.startDate = true ∨
      (∀ e ∈ calculateSchedule { L with partPayments := l1 ++ l2 },
        dateLt e.date q.date = true)) :
    calculateSchedule { L with partPayments := l1 ++ q :: l2 } =
      calculateSchedule { L with partPayments := l1 ++ l2 } := by
  unfold calculateSchedule runLoan at hcase ⊢
  dsimp only at hcase ⊢
  have hmp : loanMonthlyPayment { L with partPayments := l1 ++ q :: l2 } =
      loanMonthlyPayment { L with partPayments := l1 ++ l2 } := rfl
  rw [show ({ L with partPayments := l1 ++ q :: l2 } : LoanSchedule) =
    { principal := L.principal, annualInterestRate := L.annualInterestRate,
      loanTermYears := L.loanTermYears, startDate := L.startDate,
      partPayments := l1 ++ q :: l2,
      dayCountConvention := L.dayCountConvention } from rfl,
    show ({ L with partPayments := l1 ++ l2 } : LoanSchedule) =
    { principal := L.principal, annualInterestRate := L.annualInterestRate,
      loanTermYears := L.loanTermYears, startDate := L.startDate,
      partPayments := l1 ++ l2,
      dayCountConvention := L.dayCountConvention } from rfl] at hmp
  rw [hmp]
  rcases hcase with hlt | hgt
  · rw [run_frame_lt L.dayCountConvention L.annualInterestRate _ l1 l2 q
      (L.loanTermYears * 12) 1 _ hlt]
  · rcases run_months_or_last L.dayCountConvention L.annualInterestRate
      (loanMonthlyPayment { L with partPayments := l1 ++ l2 }) (l1 ++ l2)
      (L.loanTermYears * 12) 1
      { currentDate := L.startDate, remainingBalance := L.principal,
        schedule := [], ok := true } with hk | ⟨e, he, hd⟩
    · rw [hk, runFrom_zero, runFrom_zero]
    · have hfin := hgt e he
      rw [hd] at hfin
      rw [run_frame_gt L.dayCountConvention L.annualInterestRate _ l1 l2 q
        (L.loanTermYears * 12) 1 _ hfin]

/-- C10 witness: adding a part payment dated 2022-12-01, before the
2023-01-01 start of `c10Loan`, leaves the schedule unchanged. -/
theorem c10_witness :
    dateLt (⟨2022, 12, 1⟩ : Date) c10Loan.startDate = true ∧
    calculateSchedule { c10Loan with partPayments := [⟨⟨2022, 12, 1⟩, 100⟩] } =
      calculateSchedule c10Loan :=
  ⟨by decide,
   c10_out_of_range_ignored c10Loan [] [] ⟨⟨2022, 12, 1⟩, 100⟩ (Or.inl (by decide))⟩
